import Mathlib

/-!
Verification of the warping-path processing pipeline of the
PianoConcertoAccompaniment repository.

The development shallowly embeds the functions of `system_utils.py`,
`sonify_tools.py` and `eval_tools.py` that process warping paths,
ground-truth annotations and stereo buffers.  A warping path (a 2xN
numpy array of timestamps in seconds) is modelled as a `List (ℚ × ℚ)`
of its columns; audio samples are modelled as real numbers.  Fallible
numpy operations (indexing into an empty array) are modelled with
`Option`.
-/

/-- Body of the loop of `filter_vertical_and_horizontal_segments`
(`system_utils.py`, lines 199-208): for every index `i` from `0` to
`N-2`, the point `i` is appended to the accumulator iff the next point
differs from it in both coordinates. -/
def keepBody : List (ℚ × ℚ) → List (ℚ × ℚ)
  | p :: q :: rest =>
      if p.1 ≠ q.1 ∧ p.2 ≠ q.2 then p :: keepBody (q :: rest) else keepBody (q :: rest)
  | _ => []

/-- Function `filter_vertical_and_horizontal_segments` (`system_utils.py`, lines
188-211): keep the points whose following step is diagonal, then append
the last input point unconditionally.  Indexing `align[0, -1]` fails on
an empty array, hence the `Option`. -/
def filter_vertical_and_horizontal_segments (align : List (ℚ × ℚ)) :
    Option (List (ℚ × ℚ)) :=
  align.getLast?.map fun last => keepBody align ++ [last]

/-- Helper for Python slicing `l[0::k]`: the counter records how many
elements remain to be skipped before the next one is taken. -/
def everyKthAux (k : ℕ) : ℕ → List (ℚ × ℚ) → List (ℚ × ℚ)
  | _, [] => []
  | 0, a :: rest => a :: everyKthAux k (k - 1) rest
  | n + 1, _ :: rest => everyKthAux k n rest

/-- Python slicing `l[0::k]`: every `k`-th element starting from the
first (used by `wp_middle[:,0::downsample]` in `get_preprocessed_wp`). -/
def everyKth (k : ℕ) (l : List (ℚ × ℚ)) : List (ℚ × ℚ) := everyKthAux k 0 l

/-- Loading step of `get_preprocessed_wp` (`sonify_tools.py`, lines
31-35): if a hop length is given the path is expressed in frames and
every coordinate is multiplied by it, otherwise it is kept unchanged. -/
def loadWarpingPath (wp : List (ℚ × ℚ)) (hop_len : Option ℚ) : List (ℚ × ℚ) :=
  match hop_len with
  | none => wp
  | some h => wp.map fun p => (p.1 * h, p.2 * h)

/-- Downsampling step of `get_preprocessed_wp` (`sonify_tools.py`, lines
36-37): keep the first and last columns and every `k`-th column of the
middle.  Indexing `wp[:,0]` fails on an empty array, hence the `Option`. -/
def downsampleKeepEnds (k : ℕ) (wp : List (ℚ × ℚ)) : Option (List (ℚ × ℚ)) :=
  match wp with
  | [] => none
  | p :: rest =>
      some (p :: (everyKth k rest.dropLast ++ [(p :: rest).getLast (List.cons_ne_nil p rest)]))

/-- Function `get_preprocessed_wp` (`sonify_tools.py`, lines 17-38), written the
way the source writes it: optional frame-to-seconds conversion followed
by the keep-ends downsampling of the middle columns. -/
def get_preprocessed_wp (wp : List (ℚ × ℚ)) (downsample : ℕ) (hop_len : Option ℚ) :
    Option (List (ℚ × ℚ)) :=
  let wp1 := match hop_len with
    | none => wp
    | some h => wp.map fun p => (p.1 * h, p.2 * h)
  match wp1 with
  | [] => none
  | p :: rest =>
      some (p :: (everyKth downsample rest.dropLast ++ [(p :: rest).getLast (List.cons_ne_nil p rest)]))

/-- The warping path handed to the time-scaling operation by
`sonifyWithTSMSync` (`sonify_tools.py`, lines 107-108):
`wp = get_preprocessed_wp(align_file, downsample, hop_len)` followed by
`wp = system_utils.filter_vertical_and_horizontal_segments(wp)`. -/
def sonify_wp (wp : List (ℚ × ℚ)) (downsample : ℕ) (hop_len : Option ℚ) :
    Option (List (ℚ × ℚ)) :=
  (get_preprocessed_wp wp downsample hop_len).bind filter_vertical_and_horizontal_segments

/-- Modelled from the spec: the transform order claimed by the spec's
data-flow (`WarpingPathLoader → PathFilter → PathDownsampler`), i.e. the
path is filtered before it is downsampled.  Stated only to be compared
with `sonify_wp`, which is what the source actually computes. -/
def filter_then_downsample_wp (wp : List (ℚ × ℚ)) (downsample : ℕ) (hop_len : Option ℚ) :
    Option (List (ℚ × ℚ)) :=
  (filter_vertical_and_horizontal_segments (loadWarpingPath wp hop_len)).bind
    (downsampleKeepEnds downsample)

/-- Model of `np.interp` restricted to one query point, for a sample list of
(domain, range) pairs with increasing first coordinates: clamp to the
boundary values outside the domain, linearly interpolate between the
two bracketing samples inside.  `np.interp` on an empty sample list is
an error; the `[]` case is junk and unused (all theorems below assume a
nonempty path). -/
def interp (x : ℚ) : List (ℚ × ℚ) → ℚ
  | [] => 0
  | [p] => p.2
  | p :: q :: rest =>
      if x < p.1 then p.2
      else if x ≤ q.1 then p.2 + (q.2 - p.2) * (x - p.1) / (q.1 - p.1)
      else interp x (q :: rest)

/-- Core of `calcAlignErrors_single` (`eval_tools.py`, lines 68-88):
optionally convert the hypothesis alignment from frames to seconds,
predict `t2` at every ground-truth anchor with `np.interp`, and report
`pred - gt[:,1]` elementwise. -/
def calcAlignErrors_single (hypalign : List (ℚ × ℚ)) (gt : List (ℚ × ℚ))
    (frames : Bool) : List ℚ :=
  let hyp := if frames then
      hypalign.map fun p => (p.1 / (22050 / 512 : ℚ), p.2 / (22050 / 512 : ℚ))
    else hypalign
  gt.map fun g => interp g.1 hyp - g.2

/-- Python dict access `d[m]` for a dictionary modelled as an
association list with distinct keys (default `0` is never reached when
`m` is a key). -/
def lookupD (d : List (ℤ × ℚ)) (m : ℤ) : ℚ := (d.lookup m).getD 0

/-- Function `getGroundTruthTimestamps` (`eval_tools.py`, lines 39-66): sort the
intersection of the measure numbers of both annotation dictionaries and
of the evaluation measure set, and pair each selected measure's two
timestamps.  The annotation dictionaries and the evaluation set are
taken as already parsed. -/
def getGroundTruthTimestamps (gt1 gt2 : List (ℤ × ℚ)) (allEvalMeasures : List ℤ) :
    List (ℚ × ℚ) × List ℤ :=
  let eval_measures :=
    (((gt1.map Prod.fst).filter fun m =>
        decide (m ∈ gt2.map Prod.fst) && decide (m ∈ allEvalMeasures)).dedup).insertionSort (· ≤ ·)
  let eval_pts := eval_measures.map fun m => (lookupD gt1 m, lookupD gt2 m)
  (eval_pts, eval_measures)

/-- Model of `np.mean(x * x)`: mean squared amplitude of a channel (named after
`mse_left` / `mse_right` in `channel_volume_reweighting`). -/
noncomputable def mse (l : List ℝ) : ℝ := (l.map fun v => v * v).sum / l.length

/-- Function `channel_volume_reweighting` (`sonify_tools.py`, lines 70-82): scale
the second channel by the square root of the ratio of the two channels'
mean squared amplitudes.  The stereo buffer is modelled as the list of
its (left, right) sample rows. -/
noncomputable def channel_volume_reweighting (x_stereo : List (ℝ × ℝ)) : List (ℝ × ℝ) :=
  let mse_left := mse (x_stereo.map Prod.fst)
  let mse_right := mse (x_stereo.map Prod.snd)
  x_stereo.map fun p => (p.1, p.2 * Real.sqrt (mse_left / mse_right))

/-- The loop of the path filter keeps exactly those points whose
following step changes both coordinates: written index-free by pairing
every point with its successor. -/
lemma keepBody_eq_filterMap (al : List (ℚ × ℚ)) :
    keepBody al = (al.zip al.tail).filterMap fun pq =>
      if pq.1.1 ≠ pq.2.1 ∧ pq.1.2 ≠ pq.2.2 then some pq.1 else none := by
  induction al with
  | nil => rfl
  | cons p tl ih =>
    cases tl with
    | nil => rfl
    | cons q rest =>
      by_cases hc : p.1 ≠ q.1 ∧ p.2 ≠ q.2
      · simp only [keepBody, if_pos hc, List.tail_cons, List.zip_cons_cons,
          List.filterMap_cons, ih]
      · simp only [keepBody, if_neg hc, List.tail_cons, List.zip_cons_cons,
          List.filterMap_cons, ih]

lemma mem_of_mem_keepBody {a : ℚ × ℚ} : ∀ {al : List (ℚ × ℚ)}, a ∈ keepBody al → a ∈ al := by
  intro al
  induction al with
  | nil => intro h; simp [keepBody] at h
  | cons p tl ih =>
    cases tl with
    | nil => intro h; simp [keepBody] at h
    | cons q rest =>
      intro h
      by_cases hc : p.1 ≠ q.1 ∧ p.2 ≠ q.2
      · rw [keepBody, if_pos hc] at h
        rcases List.mem_cons.1 h with rfl | h'
        · exact List.mem_cons_self _ _
        · exact List.mem_cons_of_mem _ (ih h')
      · rw [keepBody, if_neg hc] at h
        exact List.mem_cons_of_mem _ (ih h)

/-- If the input path's first coordinates are non-decreasing, the
filtered path (kept points plus the appended last point) has strictly
increasing first coordinates. -/
lemma keepBody_concat_sorted :
    ∀ (al : List (ℚ × ℚ)) (hne : al ≠ [])
      (_ : al.Pairwise fun a b => a.1 ≤ b.1),
      (keepBody al ++ [al.getLast hne]).Pairwise fun a b : ℚ × ℚ => a.1 < b.1 := by
  intro al
  induction al with
  | nil => intro hne; exact absurd rfl hne
  | cons p tl ih =>
    intro hne hmono
    cases tl with
    | nil => simp [keepBody]
    | cons q rest =>
      have hmono' : (q :: rest).Pairwise fun a b : ℚ × ℚ => a.1 ≤ b.1 :=
        (List.pairwise_cons.1 hmono).2
      have hp : ∀ a ∈ q :: rest, p.1 ≤ a.1 := (List.pairwise_cons.1 hmono).1
      have hlast : (p :: q :: rest).getLast hne
          = (q :: rest).getLast (List.cons_ne_nil q rest) := List.getLast_cons _
      have ihh := ih (List.cons_ne_nil q rest) hmono'
      by_cases hc : p.1 ≠ q.1 ∧ p.2 ≠ q.2
      · rw [keepBody, if_pos hc, hlast, List.cons_append, List.pairwise_cons]
        refine ⟨?_, ihh⟩
        intro a ha
        have hmem : a ∈ q :: rest := by
          rcases List.mem_append.1 ha with h1 | h1
          · exact mem_of_mem_keepBody h1
          · rcases List.mem_singleton.1 h1 with rfl
            exact List.getLast_mem _
        have hpq : p.1 < q.1 := lt_of_le_of_ne (hp q (List.mem_cons_self q rest)) hc.1
        rcases List.mem_cons.1 hmem with rfl | hmem'
        · exact hpq
        · exact lt_of_lt_of_le hpq (List.rel_of_pairwise_cons hmono' hmem')
      · rw [keepBody, if_neg hc, hlast]
        exact ihh

/-- Output of the path filter on a first-coordinate-monotone input is
strictly increasing in the first coordinate. -/
lemma filter_sorted_of_monotone {al out : List (ℚ × ℚ)}
    (hmono : al.Pairwise fun a b => a.1 ≤ b.1)
    (hout : filter_vertical_and_horizontal_segments al = some out) :
    out.Pairwise fun a b : ℚ × ℚ => a.1 < b.1 := by
  unfold filter_vertical_and_horizontal_segments at hout
  rcases Option.map_eq_some'.1 hout with ⟨last, hlast, rfl⟩
  have hne : al ≠ [] := by
    intro h; subst h; simp at hlast
  have heq : last = al.getLast hne := by
    rw [List.getLast?_eq_getLast al hne] at hlast
    exact (Option.some_inj.1 hlast).symm
  subst heq
  exact keepBody_concat_sorted al hne hmono

/-- Claim C2: for a path of `N ≥ 2` points, the filter keeps point `i`
(for `i` from `0` to `N-2`) iff point `i+1` differs from point `i` in
both coordinates, appends the final point unconditionally, and the
output's last point equals the input's last point exactly. -/
theorem pathFilter_keep_iff_diagonal (al : List (ℚ × ℚ)) (_h2 : 2 ≤ al.length) :
    ∀ out, filter_vertical_and_horizontal_segments al = some out →
      out = ((al.zip al.tail).filterMap fun pq =>
          if pq.1.1 ≠ pq.2.1 ∧ pq.1.2 ≠ pq.2.2 then some pq.1 else none)
        ++ al.getLast?.toList ∧
      out.getLast? = al.getLast? := by
  intro out hout
  unfold filter_vertical_and_horizontal_segments at hout
  rcases Option.map_eq_some'.1 hout with ⟨last, hlast, rfl⟩
  constructor
  · rw [keepBody_eq_filterMap, hlast]
    rfl
  · rw [List.getLast?_concat, hlast]

theorem pathFilter_keep_iff_diagonal_witness :
    2 ≤ ([((0:ℚ),(0:ℚ)),(1,1),(1,2)] : List (ℚ × ℚ)).length ∧
    (([((0:ℚ),(0:ℚ)),(1,2)] : List (ℚ × ℚ))
        = ((([((0:ℚ),(0:ℚ)),(1,1),(1,2)] : List (ℚ × ℚ)).zip
              ([((0:ℚ),(0:ℚ)),(1,1),(1,2)] : List (ℚ × ℚ)).tail).filterMap fun pq =>
            if pq.1.1 ≠ pq.2.1 ∧ pq.1.2 ≠ pq.2.2 then some pq.1 else none)
          ++ ([((0:ℚ),(0:ℚ)),(1,1),(1,2)] : List (ℚ × ℚ)).getLast?.toList ∧
      ([((0:ℚ),(0:ℚ)),(1,2)] : List (ℚ × ℚ)).getLast?
        = ([((0:ℚ),(0:ℚ)),(1,1),(1,2)] : List (ℚ × ℚ)).getLast?) :=
  ⟨by decide, pathFilter_keep_iff_diagonal [((0:ℚ),(0:ℚ)),(1,1),(1,2)] (by decide)
    [((0:ℚ),(0:ℚ)),(1,2)] (by decide)⟩

/-- Claim C1 as stated is false: the filter does not sort anything, so a
path with decreasing first coordinates passes through unchanged and its
first (non-trailing) consecutive pair is not strictly increasing. -/
theorem pathFilter_strictly_increasing_t1_cex :
    filter_vertical_and_horizontal_segments [((3:ℚ),(3:ℚ)),(2,2),(1,1)]
        = some [((3:ℚ),(3:ℚ)),(2,2),(1,1)] ∧
    0 + 2 < ([((3:ℚ),(3:ℚ)),(2,2),(1,1)] : List (ℚ × ℚ)).length ∧
    ¬ (([((3:ℚ),(3:ℚ)),(2,2),(1,1)] : List (ℚ × ℚ)).get ⟨0, by decide⟩).1
        < (([((3:ℚ),(3:ℚ)),(2,2),(1,1)] : List (ℚ × ℚ)).get ⟨1, by decide⟩).1 :=
  ⟨by decide, by decide, by decide⟩

/-- Claim C1 (amended): for every raw path with at least 2 points whose
first coordinates are non-decreasing, the filtered path has strictly
increasing first coordinates at every consecutive pair except possibly
the final one (in fact at the final pair too). -/
theorem pathFilter_strictly_increasing_t1 (al : List (ℚ × ℚ)) (_h2 : 2 ≤ al.length)
    (hmono : al.Pairwise fun a b => a.1 ≤ b.1) :
    ∀ out, filter_vertical_and_horizontal_segments al = some out →
      ∀ i (hi : i + 1 < out.length), i + 2 < out.length →
        (out.get ⟨i, by omega⟩).1 < (out.get ⟨i + 1, hi⟩).1 := by
  intro out hout i hi _
  exact List.pairwise_iff_get.1 (filter_sorted_of_monotone hmono hout)
    ⟨i, by omega⟩ ⟨i + 1, hi⟩ (by simp [Fin.lt_def])

theorem pathFilter_strictly_increasing_t1_witness :
    (2 ≤ ([((0:ℚ),(0:ℚ)),(1,1),(2,2),(3,3)] : List (ℚ × ℚ)).length ∧
      ([((0:ℚ),(0:ℚ)),(1,1),(2,2),(3,3)] : List (ℚ × ℚ)).Pairwise (fun a b => a.1 ≤ b.1)) ∧
    (([((0:ℚ),(0:ℚ)),(1,1),(2,2),(3,3)] : List (ℚ × ℚ)).get ⟨0, by decide⟩).1
      < (([((0:ℚ),(0:ℚ)),(1,1),(2,2),(3,3)] : List (ℚ × ℚ)).get ⟨1, by decide⟩).1 :=
  ⟨⟨by decide, by decide⟩,
    pathFilter_strictly_increasing_t1 [((0:ℚ),(0:ℚ)),(1,1),(2,2),(3,3)] (by decide) (by decide)
      [((0:ℚ),(0:ℚ)),(1,1),(2,2),(3,3)] (by decide) 0 (by decide) (by decide)⟩

/-- Claim C3 as stated is false: when the raw path's first step is
degenerate (here purely vertical), the filter drops the raw first
point, so the output does not begin with it. -/
theorem pathFilter_preserves_endpoints_cex :
    ((filter_vertical_and_horizontal_segments [((0:ℚ),(0:ℚ)),(0,1)]).getD []).head?
      ≠ ([((0:ℚ),(0:ℚ)),(0,1)] : List (ℚ × ℚ)).head? := by decide

/-- Claim C3 (amended): for every raw path with at least 2 points, the
filter preserves the last point exactly, unconditionally; it preserves
the first point provided the path's first step changes both
coordinates. -/
theorem pathFilter_preserves_endpoints (al : List (ℚ × ℚ)) (h2 : 2 ≤ al.length) :
    ∀ out, filter_vertical_and_horizontal_segments al = some out →
      out.getLast? = al.getLast? ∧
      ((al.get ⟨0, by omega⟩).1 ≠ (al.get ⟨1, by omega⟩).1 →
        (al.get ⟨0, by omega⟩).2 ≠ (al.get ⟨1, by omega⟩).2 →
        out.head? = al.head?) := by
  match al, h2 with
  | p :: q :: rest, _ =>
    intro out hout
    unfold filter_vertical_and_horizontal_segments at hout
    rcases Option.map_eq_some'.1 hout with ⟨last, hlast, rfl⟩
    constructor
    · rw [List.getLast?_concat, hlast]
    · intro hx hy
      rw [keepBody, if_pos ⟨hx, hy⟩]
      rfl

theorem pathFilter_preserves_endpoints_witness :
    2 ≤ ([((0:ℚ),(0:ℚ)),(1,1),(1,2)] : List (ℚ × ℚ)).length ∧
    (([((0:ℚ),(0:ℚ)),(1,2)] : List (ℚ × ℚ)).getLast?
        = ([((0:ℚ),(0:ℚ)),(1,1),(1,2)] : List (ℚ × ℚ)).getLast? ∧
      ([((0:ℚ),(0:ℚ)),(1,2)] : List (ℚ × ℚ)).head?
        = ([((0:ℚ),(0:ℚ)),(1,1),(1,2)] : List (ℚ × ℚ)).head?) :=
  ⟨by decide,
    (pathFilter_preserves_endpoints [((0:ℚ),(0:ℚ)),(1,1),(1,2)] (by decide)
        [((0:ℚ),(0:ℚ)),(1,2)] (by decide)).1,
    (pathFilter_preserves_endpoints [((0:ℚ),(0:ℚ)),(1,1),(1,2)] (by decide)
        [((0:ℚ),(0:ℚ)),(1,2)] (by decide)).2 (by decide) (by decide)⟩

/-- Claim C9 as stated is false: on a non-monotone input the filter can
emit the same point twice in a row (here the kept point `(0,0)` at index
0 and the kept point `(0,0)` at index 3 become adjacent). -/
theorem pathFilter_no_consecutive_duplicates_cex :
    filter_vertical_and_horizontal_segments [((0:ℚ),(0:ℚ)),(1,1),(1,0),(0,0),(2,2)]
      = some [((0:ℚ),(0:ℚ)),(0,0),(2,2)] ∧
    (([((0:ℚ),(0:ℚ)),(0,0),(2,2)] : List (ℚ × ℚ)).get ⟨0, by decide⟩)
      = (([((0:ℚ),(0:ℚ)),(0,0),(2,2)] : List (ℚ × ℚ)).get ⟨1, by decide⟩) :=
  ⟨by decide, by decide⟩

/-- Claim C9 (amended): for every input path with at least 2 points
whose first coordinates are non-decreasing, no two consecutive points
of the filtered output share both coordinates. -/
theorem pathFilter_no_consecutive_duplicates (al : List (ℚ × ℚ)) (_h2 : 2 ≤ al.length)
    (hmono : al.Pairwise fun a b => a.1 ≤ b.1) :
    ∀ out, filter_vertical_and_horizontal_segments al = some out →
      ∀ i (hi : i + 1 < out.length),
        out.get ⟨i, by omega⟩ ≠ out.get ⟨i + 1, hi⟩ := by
  intro out hout i hi heq
  have hlt : (out.get ⟨i, by omega⟩).1 < (out.get ⟨i + 1, hi⟩).1 :=
    List.pairwise_iff_get.1 (filter_sorted_of_monotone hmono hout)
      ⟨i, by omega⟩ ⟨i + 1, hi⟩ (by simp [Fin.lt_def])
  rw [heq] at hlt
  exact lt_irrefl _ hlt

theorem pathFilter_no_consecutive_duplicates_witness :
    (2 ≤ ([((0:ℚ),(0:ℚ)),(1,1)] : List (ℚ × ℚ)).length ∧
      ([((0:ℚ),(0:ℚ)),(1,1)] : List (ℚ × ℚ)).Pairwise (fun a b => a.1 ≤ b.1)) ∧
    (([((0:ℚ),(0:ℚ)),(1,1)] : List (ℚ × ℚ)).get ⟨0, by decide⟩)
      ≠ (([((0:ℚ),(0:ℚ)),(1,1)] : List (ℚ × ℚ)).get ⟨1, by decide⟩) :=
  ⟨⟨by decide, by decide⟩,
    pathFilter_no_consecutive_duplicates [((0:ℚ),(0:ℚ)),(1,1)] (by decide) (by decide)
      [((0:ℚ),(0:ℚ)),(1,1)] (by decide) 0 (by decide)⟩

/-- Claim C4 as stated is false: `sonifyWithTSMSync` downsamples first
(inside `get_preprocessed_wp`) and filters afterwards, which differs
from filtering before downsampling already on this 5-point path. -/
theorem sonify_transform_order_cex :
    sonify_wp [((0:ℚ),(0:ℚ)),(1,1),(1,2),(3,3),(4,4)] 2 none
      ≠ filter_then_downsample_wp [((0:ℚ),(0:ℚ)),(1,1),(1,2),(3,3),(4,4)] 2 none := by
  decide

/-- Claim C4 (amended): the warping path handed to the time-scaling
operation by `sonifyWithTSMSync` is produced by applying the transforms
in the order load, then PathDownsampler, then PathFilter — i.e. the
path is downsampled before it is filtered. -/
theorem sonify_transform_order (wp : List (ℚ × ℚ)) (k : ℕ) (hop : Option ℚ) :
    sonify_wp wp k hop
      = (downsampleKeepEnds k (loadWarpingPath wp hop)).bind
          filter_vertical_and_horizontal_segments := by
  cases hop <;> cases wp <;> rfl

lemma everyKthAux_getElem (k : ℕ) (hk : 1 ≤ k) :
    ∀ (l : List (ℚ × ℚ)) (n j : ℕ), (everyKthAux k n l)[j]? = l[n + j * k]? := by
  intro l
  induction l with
  | nil => intro n j; simp [everyKthAux]
  | cons a rest ih =>
    intro n j
    cases n with
    | zero =>
      cases j with
      | zero => simp [everyKthAux]
      | succ j =>
        show (a :: everyKthAux k (k - 1) rest)[j + 1]? = (a :: rest)[0 + (j + 1) * k]?
        rw [List.getElem?_cons_succ, ih (k - 1) j,
          show 0 + (j + 1) * k = ((k - 1) + j * k) + 1 by rw [Nat.succ_mul]; omega,
          List.getElem?_cons_succ]
    | succ n =>
      show (everyKthAux k n rest)[j]? = (a :: rest)[(n + 1) + j * k]?
      rw [ih n j, show (n + 1) + j * k = (n + j * k) + 1 by omega, List.getElem?_cons_succ]

/-- Characterization of Python slicing `l[0::k]`: its `j`-th element is
the input's `j*k`-th element, and it has an element at `j` exactly when
the input has one at `j*k`. -/
lemma everyKth_getElem (k : ℕ) (hk : 1 ≤ k) (l : List (ℚ × ℚ)) (j : ℕ) :
    (everyKth k l)[j]? = l[j * k]? := by
  simpa using everyKthAux_getElem k hk l 0 j

lemma everyKth_one (l : List (ℚ × ℚ)) : everyKth 1 l = l := by
  apply List.ext_getElem?
  intro n
  rw [everyKth_getElem 1 le_rfl, Nat.mul_one]

/-- Claim C7: for a path of at least 2 points and a downsample factor
`k ≥ 1`, the downsampling step keeps the first and last points
unchanged, its interior is every `k`-th interior point of the input
starting from the first interior point, and `k = 1` is a no-op. -/
theorem pathDownsampler_spec (wp : List (ℚ × ℚ)) (k : ℕ) (h2 : 2 ≤ wp.length) (hk : 1 ≤ k) :
    ∀ out, get_preprocessed_wp wp k none = some out →
      out.head? = wp.head? ∧
      out.getLast? = wp.getLast? ∧
      (out.drop 1).dropLast = everyKth k ((wp.drop 1).dropLast) ∧
      (∀ j, ((out.drop 1).dropLast)[j]? = ((wp.drop 1).dropLast)[j * k]?) ∧
      (k = 1 → out = wp) := by
  match wp, h2 with
  | p :: q :: rest, _ =>
    intro out hout
    have hbody : out = p :: (everyKth k (q :: rest).dropLast
        ++ [(p :: q :: rest).getLast (List.cons_ne_nil p (q :: rest))]) :=
      (Option.some.inj hout).symm
    subst hbody
    refine ⟨rfl, ?_, ?_, ?_, ?_⟩
    · rw [show p :: (everyKth k (q :: rest).dropLast
          ++ [(p :: q :: rest).getLast (List.cons_ne_nil p (q :: rest))])
          = (p :: everyKth k (q :: rest).dropLast)
            ++ [(p :: q :: rest).getLast (List.cons_ne_nil p (q :: rest))] from rfl,
        List.getLast?_concat, List.getLast?_eq_getLast _ (List.cons_ne_nil p (q :: rest))]
    · show (everyKth k (q :: rest).dropLast
          ++ [(p :: q :: rest).getLast (List.cons_ne_nil p (q :: rest))]).dropLast
        = everyKth k (q :: rest).dropLast
      exact List.dropLast_concat
    · intro j
      show (everyKth k (q :: rest).dropLast
          ++ [(p :: q :: rest).getLast (List.cons_ne_nil p (q :: rest))]).dropLast[j]?
        = (q :: rest).dropLast[j * k]?
      rw [List.dropLast_concat, everyKth_getElem k hk]
    · intro hk1
      subst hk1
      rw [everyKth_one, List.getLast_cons (List.cons_ne_nil q rest),
        List.dropLast_concat_getLast (List.cons_ne_nil q rest)]

theorem pathDownsampler_spec_witness :
    (2 ≤ ([((0:ℚ),(0:ℚ)),(1,1),(2,2),(3,3)] : List (ℚ × ℚ)).length ∧ 1 ≤ 2) ∧
    ([((0:ℚ),(0:ℚ)),(1,1),(3,3)] : List (ℚ × ℚ)).head?
        = ([((0:ℚ),(0:ℚ)),(1,1),(2,2),(3,3)] : List (ℚ × ℚ)).head? ∧
    ([((0:ℚ),(0:ℚ)),(1,1),(3,3)] : List (ℚ × ℚ)).getLast?
        = ([((0:ℚ),(0:ℚ)),(1,1),(2,2),(3,3)] : List (ℚ × ℚ)).getLast? :=
  ⟨⟨by decide, by decide⟩,
    (pathDownsampler_spec [((0:ℚ),(0:ℚ)),(1,1),(2,2),(3,3)] 2 (by decide) (by decide)
      [((0:ℚ),(0:ℚ)),(1,1),(3,3)] (by decide)).1,
    (pathDownsampler_spec [((0:ℚ),(0:ℚ)),(1,1),(2,2),(3,3)] 2 (by decide) (by decide)
      [((0:ℚ),(0:ℚ)),(1,1),(3,3)] (by decide)).2.1⟩

/-- Model of `np.interp` clamps to the first sample's value at or before the
start of the domain. -/
lemma interp_le_head (x : ℚ) :
    ∀ (l : List (ℚ × ℚ)) (hne : l ≠ []),
      l.Pairwise (fun a b : ℚ × ℚ => a.1 < b.1) →
      x ≤ (l.head hne).1 → interp x l = (l.head hne).2 := by
  intro l
  induction l with
  | nil => intro hne; exact absurd rfl hne
  | cons p tl _ =>
    intro hne hmono hx
    cases tl with
    | nil => rfl
    | cons q rest =>
      have hx' : x ≤ p.1 := hx
      by_cases hlt : x < p.1
      · show interp x (p :: q :: rest) = p.2
        simp only [interp, if_pos hlt]
      · have heq : x = p.1 := le_antisymm hx' (not_lt.1 hlt)
        have hpq : p.1 < q.1 := (List.pairwise_cons.1 hmono).1 q (List.mem_cons_self q rest)
        have hxq : x ≤ q.1 := by rw [heq]; exact le_of_lt hpq
        show interp x (p :: q :: rest) = p.2
        simp only [interp, if_neg hlt, if_pos hxq]
        rw [heq, sub_self, mul_zero, zero_div, add_zero]

/-- Model of `np.interp` clamps to the last sample's value at or after the end
of the domain. -/
lemma interp_ge_getLast (x : ℚ) :
    ∀ (l : List (ℚ × ℚ)) (hne : l ≠ []),
      l.Pairwise (fun a b : ℚ × ℚ => a.1 < b.1) →
      (l.getLast hne).1 ≤ x → interp x l = (l.getLast hne).2 := by
  intro l
  induction l with
  | nil => intro hne; exact absurd rfl hne
  | cons p tl ih =>
    intro hne hmono hx
    cases tl with
    | nil => rfl
    | cons q rest =>
      have hlast_cons : (p :: q :: rest).getLast hne
          = (q :: rest).getLast (List.cons_ne_nil q rest) := List.getLast_cons _
      rw [hlast_cons] at hx ⊢
      have hlastmem : (q :: rest).getLast (List.cons_ne_nil q rest) ∈ q :: rest :=
        List.getLast_mem _
      have hple : p.1 < ((q :: rest).getLast (List.cons_ne_nil q rest)).1 :=
        (List.pairwise_cons.1 hmono).1 _ hlastmem
      have hnotlt : ¬ x < p.1 := not_lt.2 (le_of_lt (lt_of_lt_of_le hple hx))
      have hmono' : (q :: rest).Pairwise fun a b : ℚ × ℚ => a.1 < b.1 :=
        (List.pairwise_cons.1 hmono).2
      have hpq : p.1 < q.1 := (List.pairwise_cons.1 hmono).1 q (List.mem_cons_self q rest)
      cases rest with
      | nil =>
        by_cases hxq : x ≤ q.1
        · have hxeq : x = q.1 := le_antisymm hxq hx
          show interp x [p, q] = q.2
          simp only [interp, if_neg hnotlt, if_pos hxq]
          rw [hxeq, mul_div_cancel_right₀ _ (sub_ne_zero.2 (ne_of_gt hpq))]
          ring
        · show interp x [p, q] = q.2
          simp only [interp, if_neg hnotlt, if_neg hxq]
      | cons r rest2 =>
        have hq_lt_last : q.1 < ((q :: r :: rest2).getLast (List.cons_ne_nil q (r :: rest2))).1 := by
          have hmem2 : (q :: r :: rest2).getLast (List.cons_ne_nil q (r :: rest2)) ∈ r :: rest2 := by
            rw [List.getLast_cons (List.cons_ne_nil r rest2)]
            exact List.getLast_mem _
          exact (List.pairwise_cons.1 hmono').1 _ hmem2
        have hxq : ¬ x ≤ q.1 := not_le.2 (lt_of_lt_of_le hq_lt_last hx)
        show interp x (p :: q :: r :: rest2) = _
        simp only [interp, if_neg hnotlt, if_neg hxq]
        exact ih (List.cons_ne_nil q (r :: rest2)) hmono' hx

/-- Model of `np.interp` linearly interpolates between the two bracketing
samples inside the domain. -/
lemma interp_bracket (x : ℚ) :
    ∀ (l : List (ℚ × ℚ)), l.Pairwise (fun a b : ℚ × ℚ => a.1 < b.1) →
      ∀ i (hi : i < l.length) (hi1 : i + 1 < l.length),
        (l.get ⟨i, hi⟩).1 ≤ x → x ≤ (l.get ⟨i + 1, hi1⟩).1 →
        interp x l = (l.get ⟨i, hi⟩).2 +
          ((l.get ⟨i + 1, hi1⟩).2 - (l.get ⟨i, hi⟩).2) * (x - (l.get ⟨i, hi⟩).1)
            / ((l.get ⟨i + 1, hi1⟩).1 - (l.get ⟨i, hi⟩).1) := by
  intro l
  induction l with
  | nil => intro _ i hi; simp at hi
  | cons p tl ih =>
    intro hmono i hi hi1 hxl hxr
    cases tl with
    | nil => simp at hi1
    | cons q rest =>
      have hmono' : (q :: rest).Pairwise fun a b : ℚ × ℚ => a.1 < b.1 :=
        (List.pairwise_cons.1 hmono).2
      have hpq : p.1 < q.1 := (List.pairwise_cons.1 hmono).1 q (List.mem_cons_self q rest)
      cases i with
      | zero =>
        have hxl2 : p.1 ≤ x := hxl
        have hxr2 : x ≤ q.1 := hxr
        have hnotlt : ¬ x < p.1 := not_lt.2 hxl2
        show interp x (p :: q :: rest)
          = p.2 + (q.2 - p.2) * (x - p.1) / (q.1 - p.1)
        simp only [interp, if_neg hnotlt, if_pos hxr2]
      | succ i2 =>
        have hi2 : i2 < (q :: rest).length := by
          simp only [List.length_cons] at hi ⊢
          omega
        have hi21 : i2 + 1 < (q :: rest).length := by
          simp only [List.length_cons] at hi1 ⊢
          omega
        have hxl2 : ((q :: rest).get ⟨i2, hi2⟩).1 ≤ x := hxl
        have hxr2 : x ≤ ((q :: rest).get ⟨i2 + 1, hi21⟩).1 := hxr
        have hqi : q.1 ≤ ((q :: rest).get ⟨i2, hi2⟩).1 := by
          rcases Nat.eq_zero_or_pos i2 with h0 | hpos
          · subst h0; exact le_rfl
          · exact le_of_lt (List.pairwise_iff_get.1 hmono' ⟨0, by simp⟩ ⟨i2, hi2⟩
              (by simpa [Fin.lt_def] using hpos))
        have hnotlt : ¬ x < p.1 :=
          not_lt.2 (le_trans (le_of_lt hpq) (le_trans hqi hxl2))
        by_cases hxq : x ≤ q.1
        · -- only possible when i2 = 0 and x = q.1
          have hxeq : x = q.1 := le_antisymm hxq (le_trans hqi hxl2)
          have hi20 : i2 = 0 := by
            by_contra hne0
            have hpos : 0 < i2 := Nat.pos_of_ne_zero hne0
            have hlt : q.1 < ((q :: rest).get ⟨i2, hi2⟩).1 :=
              List.pairwise_iff_get.1 hmono' ⟨0, by simp⟩ ⟨i2, hi2⟩
                (by simpa [Fin.lt_def] using hpos)
            exact absurd hxq (not_le.2 (lt_of_lt_of_le hlt hxl2))
          subst hi20
          cases rest with
          | nil => simp at hi21
          | cons r rest2 =>
            have hxr3 : x ≤ r.1 := hxr2
            show interp x (p :: q :: r :: rest2)
              = q.2 + (r.2 - q.2) * (x - q.1) / (r.1 - q.1)
            simp only [interp, if_neg hnotlt, if_pos hxq]
            rw [hxeq, sub_self, mul_zero, zero_div, add_zero,
              mul_div_cancel_right₀ _ (sub_ne_zero.2 (ne_of_gt hpq))]
            ring
        · show interp x (p :: q :: rest)
            = ((q :: rest).get ⟨i2, hi2⟩).2 +
              (((q :: rest).get ⟨i2 + 1, hi21⟩).2 - ((q :: rest).get ⟨i2, hi2⟩).2)
                * (x - ((q :: rest).get ⟨i2, hi2⟩).1)
                / (((q :: rest).get ⟨i2 + 1, hi21⟩).1 - ((q :: rest).get ⟨i2, hi2⟩).1)
          simp only [interp, if_neg hnotlt, if_neg hxq]
          exact ih hmono' i2 hi2 hi21 hxl2 hxr2

/-- Claim C5: for a hypothesis path with strictly increasing `t1` and
any ground-truth anchors, the evaluator predicts `t2` by linear
interpolation between the two bracketing path points inside the `t1`
domain, clamps to the nearest boundary's `t2` value outside the domain
(flat extrapolation), and reports per-measure error
`predicted_t2 - ground_truth_t2`. -/
theorem alignErrorEvaluator_spec (hyp : List (ℚ × ℚ)) (hne : hyp ≠ [])
    (hmono : hyp.Pairwise fun a b : ℚ × ℚ => a.1 < b.1) :
    (∀ x : ℚ, x ≤ (hyp.head hne).1 → interp x hyp = (hyp.head hne).2) ∧
    (∀ x : ℚ, (hyp.getLast hne).1 ≤ x → interp x hyp = (hyp.getLast hne).2) ∧
    (∀ (x : ℚ) i (hi : i < hyp.length) (hi1 : i + 1 < hyp.length),
        (hyp.get ⟨i, hi⟩).1 ≤ x → x ≤ (hyp.get ⟨i + 1, hi1⟩).1 →
        interp x hyp = (hyp.get ⟨i, hi⟩).2 +
          ((hyp.get ⟨i + 1, hi1⟩).2 - (hyp.get ⟨i, hi⟩).2) * (x - (hyp.get ⟨i, hi⟩).1)
            / ((hyp.get ⟨i + 1, hi1⟩).1 - (hyp.get ⟨i, hi⟩).1)) ∧
    (∀ (gt : List (ℚ × ℚ)) (j : ℕ),
        (calcAlignErrors_single hyp gt false)[j]?
          = gt[j]?.map fun g => interp g.1 hyp - g.2) :=
  ⟨fun x => interp_le_head x hyp hne hmono,
   fun x => interp_ge_getLast x hyp hne hmono,
   fun x i hi hi1 => interp_bracket x hyp hmono i hi hi1,
   fun gt j => by simp [calcAlignErrors_single]⟩

theorem alignErrorEvaluator_spec_witness :
    (([((0:ℚ),(0:ℚ)),(2,2)] : List (ℚ × ℚ)) ≠ [] ∧
      ([((0:ℚ),(0:ℚ)),(2,2)] : List (ℚ × ℚ)).Pairwise (fun a b => a.1 < b.1)) ∧
    interp 5 [((0:ℚ),(0:ℚ)),(2,2)] = 2 :=
  ⟨⟨by decide, by decide⟩,
    (alignErrorEvaluator_spec [((0:ℚ),(0:ℚ)),(2,2)] (by decide) (by decide)).2.1
      5 (by decide)⟩

/-- Claim C6: the ground-truth matcher returns exactly the measure
numbers present in both annotation timelines and in the evaluation set,
sorted strictly ascending, together with an index-aligned list of pairs
of the two timelines' timestamps at each selected measure. -/
theorem groundTruthMatcher_spec (gt1 gt2 : List (ℤ × ℚ)) (ev : List ℤ) :
    ((getGroundTruthTimestamps gt1 gt2 ev).2).Sorted (· < ·) ∧
    (∀ m : ℤ, m ∈ (getGroundTruthTimestamps gt1 gt2 ev).2
        ↔ m ∈ gt1.map Prod.fst ∧ m ∈ gt2.map Prod.fst ∧ m ∈ ev) ∧
    ((getGroundTruthTimestamps gt1 gt2 ev).1).length
        = ((getGroundTruthTimestamps gt1 gt2 ev).2).length ∧
    (∀ j : ℕ, ((getGroundTruthTimestamps gt1 gt2 ev).1)[j]?
        = (((getGroundTruthTimestamps gt1 gt2 ev).2)[j]?).map
            fun m => (lookupD gt1 m, lookupD gt2 m)) := by
  have hms : (getGroundTruthTimestamps gt1 gt2 ev).2
      = (((gt1.map Prod.fst).filter fun m =>
          decide (m ∈ gt2.map Prod.fst) && decide (m ∈ ev)).dedup).insertionSort (· ≤ ·) := rfl
  have hpts : (getGroundTruthTimestamps gt1 gt2 ev).1
      = ((getGroundTruthTimestamps gt1 gt2 ev).2).map
          (fun m => (lookupD gt1 m, lookupD gt2 m)) := rfl
  refine ⟨?_, ?_, ?_, ?_⟩
  · rw [hms]
    exact (List.sorted_insertionSort _ _).lt_of_le
      ((List.perm_insertionSort _ _).nodup_iff.2 (List.nodup_dedup _))
  · intro m
    rw [hms, (List.perm_insertionSort _ _).mem_iff, List.mem_dedup, List.mem_filter]
    simp [and_assoc]
  · rw [hpts, List.length_map]
  · intro j
    rw [hpts, List.getElem?_map]

lemma mse_nonneg (l : List ℝ) : 0 ≤ mse l := by
  unfold mse
  apply div_nonneg
  · apply List.sum_nonneg
    intro a ha
    rcases List.mem_map.1 ha with ⟨v, _, rfl⟩
    exact mul_self_nonneg v
  · exact Nat.cast_nonneg _

lemma mse_map_mul (l : List ℝ) (c : ℝ) :
    mse (l.map fun v => v * c) = c ^ 2 * mse l := by
  have hsum : ((l.map fun v => v * c).map fun v => v * v).sum
      = c ^ 2 * ((l.map fun v => v * v).sum) := by
    induction l with
    | nil => simp
    | cons a tl ih =>
      simp only [List.map_cons, List.sum_cons, ih]
      ring
  unfold mse
  rw [List.length_map, hsum]
  ring

/-- Claim C8: when the second channel has nonzero mean squared
amplitude, reweighting multiplies the second channel by the square root
of the ratio of the first channel's mean squared amplitude to the
second channel's, leaves the first channel unchanged, and the two
channels of the result have exactly equal mean squared amplitudes. -/
theorem channel_volume_reweighting_equalizes (x : List (ℝ × ℝ))
    (h : mse (x.map Prod.snd) ≠ 0) :
    channel_volume_reweighting x
      = x.map (fun p =>
          (p.1, p.2 * Real.sqrt (mse (x.map Prod.fst) / mse (x.map Prod.snd)))) ∧
    (channel_volume_reweighting x).map Prod.fst = x.map Prod.fst ∧
    mse ((channel_volume_reweighting x).map Prod.snd)
      = mse ((channel_volume_reweighting x).map Prod.fst) := by
  have hfst : (channel_volume_reweighting x).map Prod.fst = x.map Prod.fst := by
    unfold channel_volume_reweighting
    rw [List.map_map]
    rfl
  have hsnd : (channel_volume_reweighting x).map Prod.snd
      = (x.map Prod.snd).map fun v =>
          v * Real.sqrt (mse (x.map Prod.fst) / mse (x.map Prod.snd)) := by
    unfold channel_volume_reweighting
    rw [List.map_map, List.map_map]
    rfl
  refine ⟨rfl, hfst, ?_⟩
  rw [hfst, hsnd, mse_map_mul,
    Real.sq_sqrt (div_nonneg (mse_nonneg _) (mse_nonneg _)),
    div_mul_cancel₀ _ h]

theorem channel_volume_reweighting_equalizes_witness :
    mse (([((2:ℝ),(1:ℝ))] : List (ℝ × ℝ)).map Prod.snd) ≠ 0 ∧
    mse ((channel_volume_reweighting [((2:ℝ),(1:ℝ))]).map Prod.snd)
      = mse ((channel_volume_reweighting [((2:ℝ),(1:ℝ))]).map Prod.fst) :=
  ⟨by norm_num [mse],
    (channel_volume_reweighting_equalizes [((2:ℝ),(1:ℝ))] (by norm_num [mse])).2.2⟩

/-- Claim C10: the reweighting divides by the second channel's mean
squared amplitude with no guard; for a buffer whose second channel is
identically zero that divisor is exactly zero, so the scale factor is
the square root of a division by zero. -/
theorem channel_volume_reweighting_zero_divisor (x : List (ℝ × ℝ))
    (_hne : x ≠ []) (hz : ∀ p ∈ x, p.2 = 0) :
    mse (x.map Prod.snd) = 0 ∧
    channel_volume_reweighting x
      = x.map fun p => (p.1, p.2 * Real.sqrt (mse (x.map Prod.fst) / 0)) := by
  have h0 : mse (x.map Prod.snd) = 0 := by
    unfold mse
    have hsum : ((x.map Prod.snd).map fun v => v * v).sum = 0 := by
      apply List.sum_eq_zero
      intro a ha
      rcases List.mem_map.1 ha with ⟨v, hv, rfl⟩
      rcases List.mem_map.1 hv with ⟨p, hp, rfl⟩
      rw [hz p hp, mul_zero]
    rw [hsum, zero_div]
  refine ⟨h0, ?_⟩
  rw [← h0]
  rfl

theorem channel_volume_reweighting_zero_divisor_witness :
    (([((1:ℝ),(0:ℝ))] : List (ℝ × ℝ)) ≠ [] ∧ (((1:ℝ),(0:ℝ)) : ℝ × ℝ).2 = 0) ∧
    mse (([((1:ℝ),(0:ℝ))] : List (ℝ × ℝ)).map Prod.snd) = 0 :=
  ⟨⟨by simp, by simp⟩,
    (channel_volume_reweighting_zero_divisor [((1:ℝ),(0:ℝ))] (by simp)
      (by intro p hp; rw [List.mem_singleton.1 hp])).1⟩
